import Mathlib

/-!
Verification of the wire-format codec generation engine of protoc-gen-mbt.

`src/main.go` holds two revisions of the generator separated by a document
marker; the second revision (the one defining `genMessageSize`,
`genMessageRead`, `genMessageWrite` at lines 743-1152 of the combined file) is
the current one and is the code embedded here.  The MoonBit runtime library
(`@lib`: reader.mbt / writer.mbt / sizeof.mbt) is not part of the sources, so
the wire primitives below are modelled from the spec (each such definition says
so in its doc comment).  The generated per-message codecs are embedded as
concrete Lean functions obtained by running the generator's templates
(`genMessageRead`, `genMessageWrite`, `genMessageSize`, `genFieldRead`,
`genRepeatedFieldRead`, `genFieldWrite`, `genEnum`) by hand on small schemas;
each embedding states which template branch produced it.
-/

namespace ProtoGen

/-- Decode-time failures.  Modelled from the spec: the DecodeError taxonomy is
`MalformedVarint` (a 10th continuation byte still has its high bit set),
`Truncated` (buffer ends mid-value or a length-delimited payload claims more
bytes than remain) and the rejection of the unsupported legacy group wire
types.  `outOfFuel` is an artifact of the fuel-indexed loop embedding below;
it is never the result when the fuel is at least the buffer length. -/
inductive Err where
  | truncated
  | malformedVarint
  | unsupportedWire
  | outOfFuel
deriving DecidableEq, Repr

/-- Modelled from the spec: `encode_varint(u64)`: base-128 little-endian
groups, continuation bit 0x80 on all but the final byte; at most 10 groups
are needed for a u64, hence the structural fuel of 10 (spec: sizes 1..10).
Bytes are represented as `Nat` values below 256. -/
def encodeVarintGo : Nat → Nat → List Nat
  | 0, _ => []
  | fuel + 1, n => if n < 128 then [n] else (n % 128 + 128) :: encodeVarintGo fuel (n / 128)

def encodeVarint (n : Nat) : List Nat := encodeVarintGo 10 n

/-- Modelled from the spec: `size_of_varint(n)` = number of 7-bit groups
needed, 1..10. -/
def sizeOfVarint (n : Nat) : Nat := (encodeVarint n).length

/-- Modelled from the spec: varint reading; `Truncated` if the buffer ends
mid-value, `MalformedVarint` if a 10th continuation byte still has its high
bit set (the fuel argument counts the remaining allowed bytes, 10 at entry). -/
def readVarintGo : Nat → List Nat → Except Err (Nat × List Nat)
  | _, [] => .error .truncated
  | 0, _ :: _ => .error .malformedVarint
  | fuel + 1, b :: rest =>
    if b < 128 then .ok (b, rest)
    else
      match readVarintGo fuel rest with
      | .ok (v, r) => .ok ((b - 128) + 128 * v, r)
      | .error e => .error e

def readVarint (buf : List Nat) : Except Err (Nat × List Nat) := readVarintGo 10 buf

/-- Modelled from the spec: `tag(field_number, wire_type) = (field_number <<
3) | wire_type`, encoded as a varint (this is also `protowire.EncodeTag`,
used by the generator's `tag` helper at src/main.go lines 867-884). -/
def encodeTag (num wt : Nat) : List Nat := encodeVarint (num * 8 + wt)

/-- Modelled from the spec: `decode_tag` is the inverse of `tag`: read a
varint and split it into `(field_number, wire_type)` (`@lib.read_tag`). -/
def readTag (buf : List Nat) : Except Err ((Nat × Nat) × List Nat) :=
  match readVarint buf with
  | .ok (v, r) => .ok ((v / 8, v % 8), r)
  | .error e => .error e

/-- Two's-complement reinterpretation of a MoonBit `Int`/`Int64` value as the
u64 that goes on the wire (negative int32/int64 values are sign-extended to
64 bits, per the standard wire format the spec requires bit-compatibility
with). -/
def toU64 (v : Int) : Nat := (v % (2 ^ 64 : Int)).toNat

/-- Truncate a decoded varint to its low 32 bits and reinterpret as a signed
MoonBit `Int` (`@lib.read_int32`'s value conversion). -/
def fromU32 (n : Nat) : Int :=
  if n % 2 ^ 32 < 2 ^ 31 then ((n % 2 ^ 32 : Nat) : Int) else ((n % 2 ^ 32 : Nat) : Int) - 2 ^ 32

/-- Modelled from the spec: `@lib.write_int32` writes the sign-extended value
as a varint. -/
def writeInt32 (v : Int) : List Nat := encodeVarint (toU64 v)

/-- Modelled from the spec: `@lib.size_of` on a MoonBit `Int` is the int32
varint size (sign-extended); the zigzag size is obtained only through the
`@lib.SInt` wrapper, which appears in the first generator revision's
`getSizeFnName` but is never used by the current revision's
`genMessageSize`/`genMessageWrite`. -/
def sizeOfInt32 (v : Int) : Nat := sizeOfVarint (toU64 v)

/-- Modelled from the spec: `@lib.read_int32` reads a varint and truncates to
a signed 32-bit value. -/
def readInt32 (buf : List Nat) : Except Err (Int × List Nat) :=
  match readVarint buf with
  | .ok (n, r) => .ok (fromU32 n, r)
  | .error e => .error e

/-- Modelled from the spec: `zigzag_encode(n) = (n<<1) ^ (n>>63)`, written in
its arithmetic form: nonnegative `n` maps to `2n`, negative `n` to
`2(-n) - 1`. -/
def zigzag (v : Int) : Nat := if 0 ≤ v then (2 * v).toNat else (2 * (-v) - 1).toNat

/-- Modelled from the spec: `zigzag_decode(n) = (n>>1) ^ -(n&1)`. -/
def unzigzag (n : Nat) : Int := if n % 2 = 0 then ((n / 2 : Nat) : Int) else -(((n / 2 : Nat) : Int) + 1)

/-- Modelled from the spec: `@lib.write_sint32` writes the zigzag transform
as a varint (used only for sint32/sint64). -/
def writeSint32 (v : Int) : List Nat := encodeVarint (zigzag v)

/-- Modelled from the spec: `@lib.read_sint32` reads a varint and undoes the
zigzag transform. -/
def readSint32 (buf : List Nat) : Except Err (Int × List Nat) :=
  match readVarint buf with
  | .ok (n, r) => .ok (unzigzag n, r)
  | .error e => .error e

/-- Modelled from the spec: `@lib.write_uint32` writes the 32-bit value as a
varint (the generator uses it for length prefixes). -/
def writeUint32 (n : Nat) : List Nat := encodeVarint (n % 2 ^ 32)

/-- Drop exactly `n` bytes, `Truncated` if fewer remain (spec: a
length-delimited payload claiming more bytes than remain is an error). -/
def dropExact (n : Nat) (buf : List Nat) : Except Err (List Nat) :=
  if n ≤ buf.length then .ok (buf.drop n) else .error .truncated

/-- Split off exactly `n` bytes, `Truncated` if fewer remain. -/
def takeExact (n : Nat) (buf : List Nat) : Except Err (List Nat × List Nat) :=
  if n ≤ buf.length then .ok (buf.take n, buf.drop n) else .error .truncated

/-- Modelled from the spec: `@lib.read_unknown` skips one value per its wire
type — one varint (0), 8 fixed bytes (1), a length-prefixed block (2), 4
fixed bytes (5); the legacy group wire types and the invalid ones are
recognized and rejected as unsupported. -/
def readUnknown (wt : Nat) (buf : List Nat) : Except Err (List Nat) :=
  match wt with
  | 0 =>
    match readVarint buf with
    | .ok (_, r) => .ok r
    | .error e => .error e
  | 1 => dropExact 8 buf
  | 2 =>
    match readVarint buf with
    | .ok (n, r) => dropExact n r
    | .error e => .error e
  | 5 => dropExact 4 buf
  | _ => .error .unsupportedWire

/-- The decode loop template of `genMessageRead` (src/main.go lines 840-865):
start from the default value, and while not at end of input read a tag and
dispatch on the **field number only** — every generated arm has the shape
`(N, _) => ...`, and the final arm is `(_, wire) => reader |>
@lib.read_unknown!(wire)`.  `handle` is the per-message block of generated
arms: it returns `none` when no arm matches the field number (so the
catch-all skip runs), and otherwise the updated message and remaining bytes
(or the error raised by the arm).  `fuel` bounds the number of iterations;
each iteration consumes at least the tag byte, so a fuel of the buffer
length is always sufficient. -/
def runRead {M : Type} (handle : M → Nat → Nat → List Nat → Option (Except Err (M × List Nat)))
    (s : M) (buf : List Nat) (fuel : Nat) : Except Err M :=
  match buf with
  | [] => .ok s
  | b :: bs =>
    match fuel with
    | 0 => .error .outOfFuel
    | fuel + 1 =>
      match readTag (b :: bs) with
      | .error e => .error e
      | .ok ((num, wt), rest) =>
        match handle s num wt rest with
        | some (.ok (s2, r2)) => runRead handle s2 r2 fuel
        | some (.error e) => .error e
        | none =>
          match readUnknown wt rest with
          | .ok r2 => runRead handle s r2 fuel
          | .error e => .error e

/-- Modelled from the spec: packed block element loop — after the
length-delimited block is isolated, repeatedly decode primitives from it
until it is exhausted (`@lib.read_packed`'s inner loop; the fuel is the
block length, sufficient since every element consumes at least one byte). -/
def readPackedGo {α : Type} (rd : List Nat → Except Err (α × List Nat)) :
    Nat → List Nat → Except Err (List α)
  | _, [] => .ok []
  | 0, _ :: _ => .error .outOfFuel
  | fuel + 1, buf =>
    match rd buf with
    | .ok (x, r) =>
      match readPackedGo rd fuel r with
      | .ok xs => .ok (x :: xs)
      | .error e => .error e
    | .error e => .error e

/-- Modelled from the spec: `@lib.read_packed` — read one length-delimited
block, then decode primitives from it until exhausted, returning the element
list and the bytes after the block. -/
def readPacked {α : Type} (rd : List Nat → Except Err (α × List Nat)) (buf : List Nat) :
    Except Err (List α × List Nat) :=
  match readVarint buf with
  | .ok (len, r) =>
    match takeExact len r with
    | .ok (block, r2) =>
      match readPackedGo rd block.length block with
      | .ok xs => .ok (xs, r2)
      | .error e => .error e
    | .error e => .error e
  | .error e => .error e

end ProtoGen

namespace ProtoGen

/-! ### `message MsgInt32 { int32 f = 1; }`

Embedding of the code the current generator revision emits for a message
with one singular implicit-presence int32 field, field number 1. -/

structure MsgInt32 where
  f : Int
deriving DecidableEq, Repr

/-- The generated match arms of `genFieldRead` (lines 959-982): the single
arm `(1, _) => msg.f = reader |> @lib.read_int32!()`. -/
def handleMsgInt32 (_m : MsgInt32) (num : Nat) (_wt : Nat) (rest : List Nat) :
    Option (Except Err (MsgInt32 × List Nat)) :=
  if num = 1 then
    some (match readInt32 rest with
      | .ok (v, r) => .ok (⟨v⟩, r)
      | .error e => .error e)
  else none

/-- `genMessageRead` output for `MsgInt32` (default value, loop, catch-all). -/
def MsgInt32.read (buf : List Nat) : Except Err MsgInt32 :=
  runRead handleMsgInt32 ⟨0⟩ buf buf.length

/-- `genMessageWrite` output (lines 1016-1111, singular branch at 1079-1083):
`writer |> @lib.write_varint(8UL); writer |> @lib.write_int32(self.f)` —
emitted unconditionally, with no default-value check. -/
def MsgInt32.write (m : MsgInt32) : List Nat := encodeVarint 8 ++ writeInt32 m.f

/-- `genMessageSize` output (lines 743-838, default singular branch at
801): `size += 1U + @lib.size_of(self.f)` (`protowire.SizeTag(1) = 1`). -/
def MsgInt32.size (m : MsgInt32) : Nat := 1 + sizeOfInt32 m.f

/-! ### `message MsgRepInt32Unpacked { repeated int32 f = 1 [packed=false]; }`

Embedding for an unpacked repeated int32 field (the `IsList`, not `IsPacked`
branches of the generator). -/

structure MsgRepInt32Unpacked where
  f : List Int
deriving DecidableEq, Repr

/-- `genMessageWrite` unpacked-list branch (lines 1040-1044):
`self.f.iter().each(fn(v) { writer |> @lib.write_varint(8UL); writer |>
@lib.write_int32(v) })`. -/
def MsgRepInt32Unpacked.write (m : MsgRepInt32Unpacked) : List Nat :=
  m.f.foldl (fun acc v => acc ++ (encodeVarint 8 ++ writeInt32 v)) []

/-- `genMessageSize` unpacked-list branch (line 767):
`size += self.f.iter().map(@lib.size_of).map(fn { s => 1U + @lib.size_of(s)
+ s }).fold(init=0U, UInt::op_add)` — note it counts a length-prefix varint
`@lib.size_of(s)` for every element. -/
def MsgRepInt32Unpacked.size (m : MsgRepInt32Unpacked) : Nat :=
  ((m.f.map sizeOfInt32).map fun s => 1 + sizeOfVarint s + s).foldl (· + ·) 0

/-! ### `message MsgRepInt32Packed { repeated int32 f = 1; }` (proto3, packed)

Embedding for a packed repeated int32 field. -/

structure MsgRepInt32Packed where
  f : List Int
deriving DecidableEq, Repr

/-- The generated match arm of `genRepeatedFieldRead` (lines 995-1008) for a
packed varint-kind field: `(1, _) => { msg.f.push_iter((reader |>
@lib.read_packed!(@lib.read_int32, None)).iter()) }`.  Like every generated
arm it matches the field number only. -/
def handleMsgRepInt32Packed (m : MsgRepInt32Packed) (num : Nat) (_wt : Nat) (rest : List Nat) :
    Option (Except Err (MsgRepInt32Packed × List Nat)) :=
  if num = 1 then
    some (match readPacked readInt32 rest with
      | .ok (xs, r) => .ok (⟨m.f ++ xs⟩, r)
      | .error e => .error e)
  else none

/-- `genMessageRead` output for `MsgRepInt32Packed`. -/
def MsgRepInt32Packed.read (buf : List Nat) : Except Err MsgRepInt32Packed :=
  runRead handleMsgRepInt32Packed ⟨[]⟩ buf buf.length

/-! ### `message MsgRepSint32Packed { repeated sint32 f = 1; }` (proto3, packed)

Embedding for a packed repeated sint32 field.  Its write procedure computes
the length prefix with `@lib.size_of` on the raw `Int` elements (the int32
varint size) while writing the elements with `@lib.write_sint32` (zigzag). -/

structure MsgRepSint32Packed where
  f : List Int
deriving DecidableEq, Repr

/-- Packed arm of `genRepeatedFieldRead` for a sint32 element:
`(1, _) => { msg.f.push_iter((reader |> @lib.read_packed!(@lib.read_sint32,
None)).iter()) }`. -/
def handleMsgRepSint32Packed (m : MsgRepSint32Packed) (num : Nat) (_wt : Nat) (rest : List Nat) :
    Option (Except Err (MsgRepSint32Packed × List Nat)) :=
  if num = 1 then
    some (match readPacked readSint32 rest with
      | .ok (xs, r) => .ok (⟨m.f ++ xs⟩, r)
      | .error e => .error e)
  else none

/-- `genMessageRead` output for `MsgRepSint32Packed`. -/
def MsgRepSint32Packed.read (buf : List Nat) : Except Err MsgRepSint32Packed :=
  runRead handleMsgRepSint32Packed ⟨[]⟩ buf buf.length

/-- `genMessageWrite` packed branch (lines 1024-1039) for a sint32 element:
`writer |> @lib.write_varint(10UL)` (tag with the LengthDelimited wire type),
`let size = self.f.iter().map(@lib.size_of).fold(init=0U, UInt::op_add)`,
`writer |> @lib.write_uint32(size)`, then `self.f.iter().each(fn(v) { writer
|> @lib.write_sint32(v) })`.  The prefix sums `@lib.size_of` (int32 sizes)
while the payload is zigzag varints. -/
def MsgRepSint32Packed.write (m : MsgRepSint32Packed) : List Nat :=
  encodeVarint 10 ++ writeUint32 (m.f.foldl (fun a v => a + sizeOfInt32 v) 0) ++
    m.f.foldl (fun acc v => acc ++ writeSint32 v) []

/-- `genMessageSize` packed varint branch (line 762): `size += 1U + { let
size = self.f.iter().map(@lib.size_of).fold(init=0U, UInt::op_add);
@lib.size_of(size) + size }`. -/
def MsgRepSint32Packed.size (m : MsgRepSint32Packed) : Nat :=
  1 + (sizeOfVarint (m.f.foldl (fun a v => a + sizeOfInt32 v) 0) +
    m.f.foldl (fun a v => a + sizeOfInt32 v) 0)

/-! ### `message MsgOneof { oneof test { int32 a = 1; int32 b = 2; } }`

Embedding for a non-synthetic oneof with two int32 members.  `genOneofEnum`
(lines 670-683) produces the tagged union with an extra `NotSet` variant,
which is also the default. -/

inductive MsgOneofTest where
  | a (v : Int)
  | b (v : Int)
  | notSet
deriving DecidableEq, Repr

structure MsgOneof where
  test : MsgOneofTest
deriving DecidableEq, Repr

/-- `genMessageWrite` oneof loop (lines 1085-1108): `match self.test {
A(v) => { writer |> @lib.write_varint(8UL); writer |> @lib.write_int32(v) }
B(v) => { writer |> @lib.write_varint(16UL); writer |> @lib.write_int32(v) }
NotSet => () }`. -/
def MsgOneof.write (m : MsgOneof) : List Nat :=
  match m.test with
  | .a v => encodeVarint 8 ++ writeInt32 v
  | .b v => encodeVarint 16 ++ writeInt32 v
  | .notSet => []

/-- `genMessageSize` oneof loop (lines 805-834): `match self.test { A(v) =>
size += 1U + @lib.size_of(v) B(v) => size += 1U + @lib.size_of(v) NotSet =>
() }`. -/
def MsgOneof.size (m : MsgOneof) : Nat :=
  match m.test with
  | .a v => 1 + sizeOfInt32 v
  | .b v => 1 + sizeOfInt32 v
  | .notSet => 0

/-! ### `message MsgMap { map<int32, int32> m = 1; }`

Embedding of the decode side for a map field.  The map entry is the implicit
nested message `{ 1: key, 2: value }`; `genMessages` generates its codec like
any nested message, and the map arm of `genRepeatedFieldRead` (line 1010)
reads one entry message and upserts it: `(1, _) => { let {key, value} =
((reader |> @lib.read_message!()) : MEntry); msg.m[key] = value }`. -/

structure MEntry where
  key : Int
  value : Int
deriving DecidableEq, Repr

/-- Generated arms for the entry message: `(1, _) => msg.key = read_int32`,
`(2, _) => msg.value = read_int32`. -/
def handleMEntry (m : MEntry) (num : Nat) (_wt : Nat) (rest : List Nat) :
    Option (Except Err (MEntry × List Nat)) :=
  if num = 1 then
    some (match readInt32 rest with
      | .ok (v, r) => .ok ({ m with key := v }, r)
      | .error e => .error e)
  else if num = 2 then
    some (match readInt32 rest with
      | .ok (v, r) => .ok ({ m with value := v }, r)
      | .error e => .error e)
  else none

/-- `genMessageRead` output for the map entry message: starts from the
default value (key 0, value 0), so an absent key or value stays at its zero
value. -/
def MEntry.read (buf : List Nat) : Except Err MEntry :=
  runRead handleMEntry ⟨0, 0⟩ buf buf.length

/-- MoonBit `Map` upsert `m[k] = v`: replace the value at an existing key in
place, otherwise append; the map is modelled as its insertion-ordered entry
list. -/
def mapSet : List (Int × Int) → Int → Int → List (Int × Int)
  | [], k, v => [(k, v)]
  | (k0, v0) :: rest, k, v =>
    if k0 = k then (k, v) :: rest else (k0, v0) :: mapSet rest k v

structure MsgMap where
  m : List (Int × Int)
deriving DecidableEq, Repr

/-- Modelled from the spec: `@lib.read_message` reads a varint length, takes
exactly that many bytes (error if insufficient) and decodes the nested
message from them. -/
def readMEntryMessage (buf : List Nat) : Except Err (MEntry × List Nat) :=
  match readVarint buf with
  | .ok (len, r) =>
    match takeExact len r with
    | .ok (block, r2) =>
      match MEntry.read block with
      | .ok e => .ok (e, r2)
      | .error e => .error e
    | .error e => .error e
  | .error e => .error e

/-- Map arm of `genRepeatedFieldRead` (line 1010): read one entry message
and upsert it into the map. -/
def handleMsgMap (m : MsgMap) (num : Nat) (_wt : Nat) (rest : List Nat) :
    Option (Except Err (MsgMap × List Nat)) :=
  if num = 1 then
    some (match readMEntryMessage rest with
      | .ok (e, r) => .ok (⟨mapSet m.m e.key e.value⟩, r)
      | .error e => .error e)
  else none

/-- `genMessageRead` output for `MsgMap`. -/
def MsgMap.read (buf : List Nat) : Except Err MsgMap :=
  runRead handleMsgMap ⟨[]⟩ buf buf.length

/-! ### Generated enum conversions (`genEnum`, lines 567-600)

`genEnum` identifies each enum by its ordered list of declared numbers.
`to_enum` maps variant `i` to `numbers[i]`; `from_enum` is a match whose
arms, in declaration order, map each declared number back to its variant,
with the fallback arm `_ => Default::default()`; `default()` returns the
first declared variant (`enum.Values[0]`).  The embedding represents a
variant by its declaration index. -/

def fromEnumAux : List Int → Int → Nat → Option Nat
  | [], _, _ => none
  | m :: rest, n, i => if m = n then some i else fromEnumAux rest n (i + 1)

/-- The generated `from_enum`: first matching declared number wins, and an
undeclared number falls through to the default, variant 0. -/
def fromEnum (nums : List Int) (n : Int) : Nat := (fromEnumAux nums n 0).getD 0

/-- The generated `to_enum`: variant `i` maps to its declared number. -/
def toEnum (nums : List Int) (i : Nat) : Int := nums.getD i 0

/-- Wire bytes of one map entry for `MsgMap` as the standard wire format
prescribes them: the map field's tag `(1, LengthDelimited)`, the entry
length, then key (field 1, varint) and value (field 2, varint). -/
def entryBytes (k v : Int) : List Nat :=
  10 :: (encodeVarint (8 :: writeInt32 k ++ 16 :: writeInt32 v).length ++
    (8 :: writeInt32 k ++ 16 :: writeInt32 v))

/-- A well-formed encoding of one field with the undeclared number 9999: its
tag followed by a payload that `read_unknown` consumes exactly, whatever
follows it. -/
def wfUnknown9999 (u : List Nat) : Prop :=
  ∃ wt payload, wt < 8 ∧ u = encodeTag 9999 wt ++ payload ∧
    ∀ rest, readUnknown wt (payload ++ rest) = .ok rest

/-! ### Helper lemmas -/

theorem encodeVarintGo_ne_nil (fuel n : Nat) : encodeVarintGo (fuel + 1) n ≠ [] := by
  unfold encodeVarintGo
  split <;> simp

theorem encodeVarint_ne_nil (n : Nat) : encodeVarint n ≠ [] :=
  encodeVarintGo_ne_nil 9 n

theorem readVarintGo_encodeVarintGo (fuel : Nat) :
    ∀ n rest, 0 < fuel → n < 2 ^ (7 * fuel) →
      readVarintGo fuel (encodeVarintGo fuel n ++ rest) = .ok (n, rest) := by
  induction fuel with
  | zero => intro n rest h _; omega
  | succ fuel ih =>
    intro n rest _ hn
    by_cases h : n < 128
    · simp [encodeVarintGo, h, readVarintGo]
    · have hf : 0 < fuel := by
        rcases Nat.eq_zero_or_pos fuel with h0 | h0
        · subst h0; norm_num at hn; omega
        · exact h0
      have hdiv : n / 128 < 2 ^ (7 * fuel) := by
        have hpow : 2 ^ (7 * (fuel + 1)) = 2 ^ (7 * fuel) * 128 := by
          rw [Nat.mul_succ, pow_add]; norm_num
        rw [Nat.div_lt_iff_lt_mul (by norm_num : 0 < 128)]
        omega
      have hge : ¬ n % 128 + 128 < 128 := by omega
      simp only [encodeVarintGo, if_neg h, List.cons_append, readVarintGo, if_neg hge,
        ih (n / 128) rest hf hdiv]
      simp only [Except.ok.injEq, Prod.mk.injEq, and_true]
      omega

theorem readVarint_encodeVarint (n : Nat) (rest : List Nat) (hn : n < 2 ^ 70) :
    readVarint (encodeVarint n ++ rest) = .ok (n, rest) :=
  readVarintGo_encodeVarintGo 10 n rest (by norm_num) (by norm_num at hn ⊢; omega)

theorem readInt32_writeInt32 (k : Int) (rest : List Nat)
    (h1 : -(2 ^ 31) ≤ k) (h2 : k < 2 ^ 31) :
    readInt32 (writeInt32 k ++ rest) = .ok (k, rest) := by
  have hlt : toU64 k < 2 ^ 70 := by
    unfold toU64
    have := Int.emod_lt_of_pos k (by norm_num : (0:Int) < 2 ^ 64)
    have := Int.emod_nonneg k (by norm_num : (2:Int) ^ 64 ≠ 0)
    omega
  have hval : fromU32 (toU64 k) = k := by
    unfold fromU32 toU64
    split <;> omega
  unfold readInt32 writeInt32
  simp only [readVarint_encodeVarint _ _ hlt, hval]

theorem runRead_step {M : Type} (h : M → Nat → Nat → List Nat → Option (Except Err (M × List Nat)))
    (s : M) (buf : List Nat) (fuel : Nat) (hne : buf ≠ []) :
    runRead h s buf (fuel + 1) =
      (match readTag buf with
      | .error e => .error e
      | .ok ((num, wt), rest) =>
        match h s num wt rest with
        | some (.ok (s2, r2)) => runRead h s2 r2 fuel
        | some (.error e) => .error e
        | none =>
          match readUnknown wt rest with
          | .ok r2 => runRead h s r2 fuel
          | .error e => .error e) := by
  cases buf with
  | nil => exact absurd rfl hne
  | cons b bs => rfl

theorem runRead_nil {M : Type} (h : M → Nat → Nat → List Nat → Option (Except Err (M × List Nat)))
    (s : M) (fuel : Nat) : runRead h s [] fuel = .ok s := by
  cases fuel <;> rfl

theorem runRead_mono {M : Type} (h : M → Nat → Nat → List Nat → Option (Except Err (M × List Nat))) :
    ∀ n m (s : M) (buf : List Nat) (r : M),
      runRead h s buf n = .ok r → n ≤ m → runRead h s buf m = .ok r := by
  intro n
  induction n with
  | zero =>
    intro m s buf r hrun _
    cases buf with
    | nil => rw [runRead_nil] at hrun ⊢; exact hrun
    | cons b bs => simp [runRead] at hrun
  | succ n ih =>
    intro m s buf r hrun hle
    cases buf with
    | nil => rw [runRead_nil] at hrun ⊢; exact hrun
    | cons b bs =>
      cases m with
      | zero => omega
      | succ m =>
        rw [runRead_step h s (b :: bs) n (by simp)] at hrun
        rw [runRead_step h s (b :: bs) m (by simp)]
        cases htag : readTag (b :: bs) with
        | error e => simp [htag] at hrun
        | ok p =>
          obtain ⟨⟨num, wt⟩, rest⟩ := p
          simp only [htag] at hrun ⊢
          cases hh : h s num wt rest with
          | none =>
            simp only [hh] at hrun ⊢
            cases hu : readUnknown wt rest with
            | ok r2 =>
              simp only [hu] at hrun ⊢
              exact ih m s r2 r hrun (by omega)
            | error e => simp [hu] at hrun
          | some res =>
            cases res with
            | ok p2 =>
              obtain ⟨s2, r2⟩ := p2
              simp only [hh] at hrun ⊢
              exact ih m s2 r2 r hrun (by omega)
            | error e => simp [hh] at hrun

theorem readTag_encodeTag (num wt : Nat) (rest : List Nat)
    (hnum : num < 2 ^ 29) (hwt : wt < 8) :
    readTag (encodeTag num wt ++ rest) = .ok ((num, wt), rest) := by
  have h1 : (num * 8 + wt) / 8 = num := by omega
  have h2 : (num * 8 + wt) % 8 = wt := by omega
  unfold readTag encodeTag
  simp only [readVarint_encodeVarint (num * 8 + wt) rest (by norm_num at hnum ⊢; omega), h1, h2]

theorem runRead_skip_unknown {M : Type}
    (h : M → Nat → Nat → List Nat → Option (Except Err (M × List Nat)))
    (s : M) (wt : Nat) (payload buf : List Nat) (fuel : Nat)
    (hwt : wt < 8)
    (hnone : h s 9999 wt (payload ++ buf) = none)
    (hskip : readUnknown wt (payload ++ buf) = .ok buf) :
    runRead h s ((encodeTag 9999 wt ++ payload) ++ buf) (fuel + 1) = runRead h s buf fuel := by
  have hne : (encodeTag 9999 wt ++ payload) ++ buf ≠ [] := by
    have := encodeVarint_ne_nil (9999 * 8 + wt)
    unfold encodeTag
    cases henc : encodeVarint (9999 * 8 + wt) with
    | nil => exact absurd henc this
    | cons b bs => simp
  have htag : readTag ((encodeTag 9999 wt ++ payload) ++ buf) = .ok ((9999, wt), payload ++ buf) := by
    rw [List.append_assoc]
    exact readTag_encodeTag 9999 wt (payload ++ buf) (by norm_num) hwt
  rw [runRead_step h s _ fuel hne]
  simp only [htag, hnone, hskip]

theorem readVarint_singleByte (b : Nat) (rest : List Nat) (hb : b < 128) :
    readVarint (b :: rest) = .ok (b, rest) := by
  show readVarintGo (9 + 1) (b :: rest) = .ok (b, rest)
  unfold readVarintGo
  rw [if_pos hb]

theorem readTag_singleByte (b : Nat) (rest : List Nat) (hb : b < 128) :
    readTag (b :: rest) = .ok ((b / 8, b % 8), rest) := by
  unfold readTag
  rw [readVarint_singleByte b rest hb]

theorem readInt32_singleByte (b : Nat) (rest : List Nat) (hb : b < 128) :
    readInt32 (b :: rest) = .ok ((b : Int), rest) := by
  have hval : fromU32 b = (b : Int) := by
    unfold fromU32
    split <;> omega
  unfold readInt32
  rw [readVarint_singleByte b rest hb]
  simp only [hval]

theorem takeExact_append (xs rest : List Nat) :
    takeExact xs.length (xs ++ rest) = .ok (xs, rest) := by
  unfold takeExact
  rw [if_pos (by simp)]
  rw [List.take_left, List.drop_left]

/-! ### Claim theorems -/

/-- C1: the round-trip `decode(encode(v)) == v` fails on the code.  For the
message with one packed repeated sint32 field (number 1) and the value
`{f: [-1]}`, the generated write emits the bytes `[0x0A, 0x0A, 0x01]`: the
length prefix is 10 because the packed branch of `genMessageWrite` sums
`@lib.size_of` over the raw elements (the sign-extended int32 varint size of
-1 is 10 bytes) while the elements themselves are written with
`@lib.write_sint32` (zigzag of -1 is 1, a single byte `0x01`).  Decoding
those bytes reads the length prefix 10, finds only 1 byte remaining, and
fails with `Truncated`, so `decode(encode v)` is an error, not `v`. -/
theorem roundtrip_fails_for_packed_sint32 :
    MsgRepSint32Packed.write ⟨[-1]⟩ = [10, 10, 1] ∧
    MsgRepSint32Packed.read (MsgRepSint32Packed.write ⟨[-1]⟩) = .error .truncated :=
  ⟨rfl, rfl⟩

/-- C2: `size(v) == length(encode(v))` fails on the code.  For the message
with one unpacked repeated int32 field (number 1) and the value `{f: [1]}`,
`genMessageSize`'s unpacked-list branch counts
`1 (tag) + size_of(size_of(1)) (a phantom length prefix) + size_of(1) = 3`
bytes, while `genMessageWrite`'s unpacked-list branch emits
`tag ++ varint(1) = [0x08, 0x01]`, 2 bytes. -/
theorem size_disagrees_with_encode_length :
    MsgRepInt32Unpacked.size ⟨[1]⟩ = 3 ∧ (MsgRepInt32Unpacked.write ⟨[1]⟩).length = 2 :=
  ⟨rfl, rfl⟩

/-- C3: an implicit-presence field equal to its zero value is NOT omitted by
the current generator revision.  For the singular int32 field number 1 set
to 0, the singular branch of `genMessageWrite` (lines 1079-1083)
unconditionally emits `writer |> @lib.write_varint(8UL); writer |>
@lib.write_int32(self.f)`, producing the two bytes `[0x08, 0x00]`, and
`genMessageSize` counts those 2 bytes; there is no `!= default` guard (the
first revision's `writeField` at lines 438-444 has one). -/
theorem default_valued_int32_still_emitted :
    MsgInt32.write ⟨0⟩ = [8, 0] ∧ MsgInt32.size ⟨0⟩ = 2 :=
  ⟨rfl, rfl⟩

/-- C4 counterexample: a known field number with a mismatched wire type is
not skipped.  The buffer `[0x0D, 1, 0, 0, 0]` carries the tag `(1, Fixed32)`
followed by the 4 fixed bytes `1 0 0 0`; field 1 is declared int32 (Varint
kind).  The claim predicts the decoder skips the 4 fixed bytes and returns
the default `{f: 0}` without error.  The generated arm `(1, _)` instead
reads a varint per the declared kind, assigns `f = 1`, misinterprets the
trailing zero bytes as tags of field 0, and ends in a `Truncated` error. -/
theorem mismatched_wire_type_not_skipped :
    MsgInt32.read [13, 1, 0, 0, 0] = .error .truncated :=
  rfl

/-- C6 counterexample: a packed-declared repeated scalar field does not
accept the unpacked encoding.  `[0x08, 0x01]` is the unpacked encoding of
the sequence `[1]` for repeated int32 field 1 (tag with the Varint wire
type, then the element).  The generated arm `(1, _)` ignores the wire type
and parses a length-delimited block: it reads block length 1 with no byte
remaining and fails with `Truncated`, instead of decoding `[1]`. -/
theorem unpacked_form_rejected_by_packed_decoder :
    MsgRepInt32Packed.read [8, 1] = .error .truncated :=
  rfl

/-- C8: the oneof write emits exactly the active member's tag and value and
nothing else: with member B active the output is B's tag `(2, Varint)`
followed by B's varint value (so member A's tag, `(1, Varint)`, never
appears), symmetrically for A, and the explicit `NotSet` state emits no
bytes at all. -/
theorem oneof_emits_only_active_member :
    (∀ v : Int, MsgOneof.write ⟨.b v⟩ = encodeTag 2 0 ++ writeInt32 v) ∧
    (∀ v : Int, MsgOneof.write ⟨.a v⟩ = encodeTag 1 0 ++ writeInt32 v) ∧
    MsgOneof.write ⟨.notSet⟩ = [] :=
  ⟨fun _ => rfl, fun _ => rfl, rfl⟩

/-- C9: the spec scenario: int32 field number 1 with value 300 encodes to
exactly `[0x08, 0xAC, 0x02]` and the generated size procedure returns 3. -/
theorem int32_300_encodes_to_three_bytes :
    MsgInt32.write ⟨300⟩ = [8, 172, 2] ∧ MsgInt32.size ⟨300⟩ = 3 :=
  ⟨rfl, rfl⟩

/-- C4 amended: the generated decode loop dispatches on the field number
alone.  A tag carrying a declared field number (here 1, tag byte `8 + wt`)
is decoded according to the field's declared kind (int32, a varint)
whatever wire type `wt` the tag carries; the wire type is never consulted
for declared numbers, so nothing is skipped for them.  (Only undeclared
field numbers reach the catch-all skip arm.) -/
theorem declared_number_read_per_declared_kind (wt : Nat) (hwt : wt < 8)
    (m : MsgInt32) (rest : List Nat) (fuel : Nat) :
    runRead handleMsgInt32 m ((8 + wt) :: rest) (fuel + 1) =
      (match readInt32 rest with
      | .ok (v, r) => runRead handleMsgInt32 ⟨v⟩ r fuel
      | .error e => .error e) := by
  rw [runRead_step handleMsgInt32 m ((8 + wt) :: rest) fuel (by simp)]
  have h1 : (8 + wt) / 8 = 1 := by omega
  have h2 : (8 + wt) % 8 = wt := by omega
  have htag : readTag ((8 + wt) :: rest) = .ok ((1, wt), rest) := by
    rw [readTag_singleByte (8 + wt) rest (by omega), h1, h2]
  simp only [htag, handleMsgInt32, if_pos rfl]
  cases hr : readInt32 rest with
  | ok p =>
    obtain ⟨v, r⟩ := p
    simp [hr]
  | error e => simp [hr]

/-- C4 witness: instantiation at the Fixed32 wire type (5) with the buffer
tail `[7]`: the declared int32 field is read as the varint 7. -/
theorem declared_number_read_per_declared_kind_witness :
    runRead handleMsgInt32 ⟨0⟩ ((8 + 5) :: [7]) (0 + 1) =
      (match readInt32 [7] with
      | .ok (v, r) => runRead handleMsgInt32 ⟨v⟩ r 0
      | .error e => .error e) :=
  declared_number_read_per_declared_kind 5 (by decide) ⟨0⟩ [7] 0

/-- C5: unknown-field tolerance.  First part: at any loop state, a
well-formed field with the undeclared number 9999 prefixed to the remaining
input is skipped by the catch-all arm, leaving the state untouched (so such
a field inserted at any field boundary is ignored).  Second part: for the
top-level entry point, if a buffer decodes to `r`, the buffer with such a
field injected still decodes to `r` without error. -/
theorem unknown_field_number_tolerated :
    (∀ (s : MsgInt32) (buf : List Nat) (fuel : Nat) (u : List Nat), wfUnknown9999 u →
      runRead handleMsgInt32 s (u ++ buf) (fuel + 1) = runRead handleMsgInt32 s buf fuel) ∧
    (∀ (u buf : List Nat) (r : MsgInt32), wfUnknown9999 u →
      MsgInt32.read buf = .ok r → MsgInt32.read (u ++ buf) = .ok r) := by
  have hmain : ∀ (s : MsgInt32) (buf : List Nat) (fuel : Nat) (u : List Nat), wfUnknown9999 u →
      runRead handleMsgInt32 s (u ++ buf) (fuel + 1) = runRead handleMsgInt32 s buf fuel := by
    intro s buf fuel u hu
    obtain ⟨wt, payload, hwt, hueq, hskip⟩ := hu
    subst hueq
    exact runRead_skip_unknown handleMsgInt32 s wt payload buf fuel hwt
      (by simp [handleMsgInt32]) (hskip buf)
  refine ⟨hmain, fun u buf r hu hbuf => ?_⟩
  have hlen : 1 ≤ u.length := by
    obtain ⟨wt, payload, _, hueq, _⟩ := hu
    subst hueq
    have hne := encodeVarint_ne_nil (9999 * 8 + wt)
    unfold encodeTag
    cases henc : encodeVarint (9999 * 8 + wt) with
    | nil => exact absurd henc hne
    | cons b bs => simp [henc]
  unfold MsgInt32.read at hbuf ⊢
  have heq : (u ++ buf).length = (u.length + buf.length - 1) + 1 := by
    rw [List.length_append]; omega
  rw [heq, hmain ⟨0⟩ buf (u.length + buf.length - 1) u hu]
  exact runRead_mono handleMsgInt32 buf.length (u.length + buf.length - 1) ⟨0⟩ buf r hbuf (by omega)

/-- C5 witness: the unknown field `(9999, Varint)` — tag bytes
`[248, 240, 4]`, payload the single varint byte 42 — prefixed to the valid
buffer `[8, 5]` (field 1 = 5) still decodes to `{f: 5}`. -/
theorem unknown_field_number_tolerated_witness :
    MsgInt32.read ([248, 240, 4, 42] ++ [8, 5]) = .ok ⟨5⟩ :=
  unknown_field_number_tolerated.2 [248, 240, 4, 42] [8, 5] ⟨5⟩
    ⟨0, [42], by decide, by decide, fun rest => rfl⟩ rfl

theorem encodeVarintGo_length_le (fuel : Nat) : ∀ n, (encodeVarintGo fuel n).length ≤ fuel := by
  induction fuel with
  | zero => intro n; rfl
  | succ fuel ih =>
    intro n
    unfold encodeVarintGo
    split
    · simp
    · simpa using ih (n / 128)

theorem encodeVarint_length_le (n : Nat) : (encodeVarint n).length ≤ 10 :=
  encodeVarintGo_length_le 10 n

theorem runRead_step_known {M : Type}
    (h : M → Nat → Nat → List Nat → Option (Except Err (M × List Nat)))
    (s s2 : M) (b : Nat) (bs rest rest2 : List Nat) (num wt fuel : Nat)
    (htag : readTag (b :: bs) = .ok ((num, wt), rest))
    (hh : h s num wt rest = some (.ok (s2, rest2))) :
    runRead h s (b :: bs) (fuel + 1) = runRead h s2 rest2 fuel := by
  rw [runRead_step h s (b :: bs) fuel (by simp)]
  simp only [htag, hh]

theorem readPackedGo_singleBytes (xs : List Nat) (h1 : ∀ b ∈ xs, b < 128) :
    readPackedGo readInt32 xs.length xs = .ok (xs.map Int.ofNat) := by
  induction xs with
  | nil => rfl
  | cons b rest ih =>
    show readPackedGo readInt32 (rest.length + 1) (b :: rest) = _
    simp only [readPackedGo, readInt32_singleByte b rest (h1 b (by simp)),
      ih (fun c hc => h1 c (by simp [hc])), List.map_cons]
    rfl

/-- C6 amended: the generated decoder accepts only the encoding matching the
field's declared packedness.  For the packed-declared repeated int32 field,
every occurrence is parsed as one length-delimited block of concatenated
element encodings (here: a block of single-byte varint elements decodes to
exactly the element sequence); the unpacked form is not accepted, since the
arm ignores the tag's wire type (the counterexample theorem shows it
failing). -/
theorem packed_decoder_accepts_packed_form (xs : List Nat)
    (h1 : ∀ b ∈ xs, b < 128) (h2 : xs.length < 128) :
    MsgRepInt32Packed.read (10 :: xs.length :: xs) = .ok ⟨xs.map Int.ofNat⟩ := by
  unfold MsgRepInt32Packed.read
  show runRead handleMsgRepInt32Packed ⟨[]⟩ (10 :: xs.length :: xs) ((xs.length + 1) + 1) = _
  have ht : takeExact xs.length xs = .ok (xs, []) := by
    simpa using takeExact_append xs []
  have hpacked : readPacked readInt32 (xs.length :: xs) = .ok (xs.map Int.ofNat, []) := by
    unfold readPacked
    simp only [readVarint_singleByte xs.length xs h2, ht, readPackedGo_singleBytes xs h1]
  have hh : handleMsgRepInt32Packed ⟨[]⟩ 1 2 (xs.length :: xs) =
      some (.ok (⟨xs.map Int.ofNat⟩, [])) := by
    simp only [handleMsgRepInt32Packed, if_pos rfl, hpacked]
    rfl
  rw [runRead_step_known handleMsgRepInt32Packed ⟨[]⟩ ⟨xs.map Int.ofNat⟩ 10
    (xs.length :: xs) (xs.length :: xs) [] 1 2 (xs.length + 1)
    (readTag_singleByte 10 _ (by norm_num)) hh]
  exact runRead_nil _ _ _

/-- C6 witness: the packed block `[0x0A, 2, 1, 2]` decodes to the sequence
`[1, 2]`. -/
theorem packed_decoder_accepts_packed_form_witness :
    MsgRepInt32Packed.read [10, 2, 1, 2] = .ok ⟨[1, 2]⟩ :=
  packed_decoder_accepts_packed_form [1, 2] (by decide) (by decide)

theorem mentry_read_encoded (k v : Int) (hk1 : -(2 ^ 31) ≤ k) (hk2 : k < 2 ^ 31)
    (hv1 : -(2 ^ 31) ≤ v) (hv2 : v < 2 ^ 31) :
    MEntry.read (8 :: writeInt32 k ++ 16 :: writeInt32 v) = .ok ⟨k, v⟩ := by
  have hv : readInt32 (writeInt32 v) = .ok (v, []) := by
    simpa using readInt32_writeInt32 v [] hv1 hv2
  have h1 : runRead handleMEntry ⟨0, 0⟩ (8 :: (writeInt32 k ++ 16 :: writeInt32 v)) (1 + 1) =
      runRead handleMEntry ⟨k, 0⟩ (16 :: writeInt32 v) 1 :=
    runRead_step_known handleMEntry ⟨0, 0⟩ ⟨k, 0⟩ 8 (writeInt32 k ++ 16 :: writeInt32 v)
      (writeInt32 k ++ 16 :: writeInt32 v) (16 :: writeInt32 v) 1 0 1
      (readTag_singleByte 8 _ (by norm_num))
      (by simp [handleMEntry, readInt32_writeInt32 k (16 :: writeInt32 v) hk1 hk2])
  have h2 : runRead handleMEntry ⟨k, 0⟩ (16 :: writeInt32 v) (0 + 1) =
      runRead handleMEntry ⟨k, v⟩ [] 0 :=
    runRead_step_known handleMEntry ⟨k, 0⟩ ⟨k, v⟩ 16 (writeInt32 v)
      (writeInt32 v) [] 2 0 0
      (readTag_singleByte 16 _ (by norm_num))
      (by simp [handleMEntry, hv])
  have hstep : runRead handleMEntry ⟨0, 0⟩ (8 :: (writeInt32 k ++ 16 :: writeInt32 v)) 2 =
      .ok ⟨k, v⟩ := by
    rw [show (2 : Nat) = 1 + 1 from rfl, h1, show (1 : Nat) = 0 + 1 from rfl, h2, runRead_nil]
  unfold MEntry.read
  exact runRead_mono handleMEntry 2 _ ⟨0, 0⟩ _ ⟨k, v⟩ hstep
    (by simp only [List.length_cons, List.length_append]; omega)

theorem msgmap_entry_step (s : MsgMap) (k v : Int) (rest : List Nat) (fuel : Nat)
    (hk1 : -(2 ^ 31) ≤ k) (hk2 : k < 2 ^ 31)
    (hv1 : -(2 ^ 31) ≤ v) (hv2 : v < 2 ^ 31) :
    runRead handleMsgMap s (entryBytes k v ++ rest) (fuel + 1) =
      runRead handleMsgMap ⟨mapSet s.m k v⟩ rest fuel := by
  have hshape : entryBytes k v ++ rest =
      10 :: (encodeVarint (8 :: writeInt32 k ++ 16 :: writeInt32 v).length ++
        ((8 :: writeInt32 k ++ 16 :: writeInt32 v) ++ rest)) := by
    unfold entryBytes
    simp [List.append_assoc]
  have hlen : (8 :: writeInt32 k ++ 16 :: writeInt32 v).length < 2 ^ 70 := by
    have ha : (writeInt32 k).length ≤ 10 := encodeVarint_length_le _
    have hb : (writeInt32 v).length ≤ 10 := encodeVarint_length_le _
    simp only [List.length_cons, List.length_append]
    have h70 : 23 < 2 ^ 70 := by norm_num
    omega
  have hmsg : readMEntryMessage (encodeVarint (8 :: writeInt32 k ++ 16 :: writeInt32 v).length ++
      ((8 :: writeInt32 k ++ 16 :: writeInt32 v) ++ rest)) = .ok (⟨k, v⟩, rest) := by
    unfold readMEntryMessage
    simp only [readVarint_encodeVarint _ _ hlen,
      takeExact_append (8 :: writeInt32 k ++ 16 :: writeInt32 v) rest,
      mentry_read_encoded k v hk1 hk2 hv1 hv2]
  have hh : ∀ buf2, readMEntryMessage buf2 = .ok (⟨k, v⟩, rest) →
      handleMsgMap s 1 2 buf2 = some (.ok (⟨mapSet s.m k v⟩, rest)) := by
    intro buf2 hbuf2
    simp [handleMsgMap, hbuf2]
  rw [hshape]
  exact runRead_step_known handleMsgMap s ⟨mapSet s.m k v⟩ 10 _ _ rest 1 2 fuel
    (readTag_singleByte 10 _ (by norm_num)) (hh _ hmsg)

/-- C7: map decoding is last-write-wins with per-entry defaulting.  First
conjunct: a buffer with two entries sharing the key `k` (values `v1` then
`v2`) decodes to the map holding only `(k, v2)` — each decoded entry is
upserted, so the later entry overwrites the earlier.  Second conjunct: an
entry whose length-delimited body is empty (no key field, no value field)
decodes with both key and value at their zero values, yielding `{0 ↦ 0}`. -/
theorem map_duplicate_key_last_entry_wins (k v1 v2 : Int)
    (hk1 : -(2 ^ 31) ≤ k) (hk2 : k < 2 ^ 31)
    (hv11 : -(2 ^ 31) ≤ v1) (hv12 : v1 < 2 ^ 31)
    (hv21 : -(2 ^ 31) ≤ v2) (hv22 : v2 < 2 ^ 31) :
    MsgMap.read (entryBytes k v1 ++ entryBytes k v2) = .ok ⟨[(k, v2)]⟩ ∧
    MsgMap.read [10, 0] = .ok ⟨[(0, 0)]⟩ := by
  refine ⟨?_, rfl⟩
  unfold MsgMap.read
  have hl1 : 1 ≤ (entryBytes k v1).length := by
    unfold entryBytes; simp
  have hl2 : 1 ≤ (entryBytes k v2).length := by
    unfold entryBytes; simp
  have htarget : runRead handleMsgMap ⟨[(k, v1)]⟩ (entryBytes k v2)
      ((entryBytes k v2).length) = .ok ⟨[(k, v2)]⟩ := by
    have h3 : (entryBytes k v2).length = ((entryBytes k v2).length - 1) + 1 := by omega
    rw [h3]
    have hstep := msgmap_entry_step ⟨[(k, v1)]⟩ k v2 [] ((entryBytes k v2).length - 1)
      hk1 hk2 hv21 hv22
    rw [List.append_nil] at hstep
    rw [hstep, runRead_nil]
    simp [mapSet]
  have heq : (entryBytes k v1 ++ entryBytes k v2).length =
      ((entryBytes k v1).length + (entryBytes k v2).length - 1) + 1 := by
    rw [List.length_append]; omega
  rw [heq, msgmap_entry_step ⟨[]⟩ k v1 (entryBytes k v2) _ hk1 hk2 hv11 hv12]
  have hfirst : mapSet [] k v1 = [(k, v1)] := rfl
  rw [hfirst]
  exact runRead_mono handleMsgMap ((entryBytes k v2).length)
    ((entryBytes k v1).length + (entryBytes k v2).length - 1) ⟨[(k, v1)]⟩
    (entryBytes k v2) ⟨[(k, v2)]⟩ htarget (by omega)

/-- C7 witness: two entries for key 1, values 2 then 3, decode to `{1 ↦ 3}`;
and the empty entry `[0x0A, 0]` decodes to `{0 ↦ 0}`. -/
theorem map_duplicate_key_last_entry_wins_witness :
    MsgMap.read (entryBytes 1 2 ++ entryBytes 1 3) = .ok ⟨[(1, 3)]⟩ ∧
    MsgMap.read [10, 0] = .ok ⟨[(0, 0)]⟩ :=
  map_duplicate_key_last_entry_wins 1 2 3 (by norm_num) (by norm_num) (by norm_num)
    (by norm_num) (by norm_num) (by norm_num)

theorem getD_mem (l : List Int) (j : Nat) (hj : j < l.length) : l.getD j 0 ∈ l := by
  induction l generalizing j with
  | nil => simp at hj
  | cons a t ih =>
    cases j with
    | zero => simp
    | succ j =>
      simp only [List.getD_cons_succ, List.mem_cons]
      exact Or.inr (ih j (by simpa using hj))

theorem fromEnumAux_of_not_mem (l : List Int) (n : Int) (hn : n ∉ l) :
    ∀ i, fromEnumAux l n i = none := by
  induction l with
  | nil => intro i; rfl
  | cons a t ih =>
    intro i
    have ha : a ≠ n := fun h => hn (by simp [h])
    simp only [fromEnumAux, if_neg ha]
    exact ih (fun h => hn (by simp [h])) (i + 1)

theorem fromEnumAux_getD (l : List Int) (hnd : l.Nodup) :
    ∀ j i, j < l.length → fromEnumAux l (l.getD j 0) i = some (i + j) := by
  induction l with
  | nil => intro j i hj; simp at hj
  | cons a t ih =>
    intro j i hj
    obtain ⟨hat, htnd⟩ := List.nodup_cons.mp hnd
    cases j with
    | zero => simp [fromEnumAux]
    | succ j =>
      have hjt : j < t.length := by simpa using hj
      have hne : a ≠ t.getD j 0 := by
        intro h
        exact hat (h ▸ getD_mem t j hjt)
      simp only [List.getD_cons_succ, fromEnumAux, if_neg hne]
      rw [ih htnd j (i + 1) hjt]
      congr 1
      omega

theorem exists_getD_of_mem (l : List Int) (n : Int) (h : n ∈ l) :
    ∃ j, j < l.length ∧ l.getD j 0 = n := by
  induction l with
  | nil => simp at h
  | cons a t ih =>
    rcases List.mem_cons.mp h with h1 | h2
    · exact ⟨0, by simp, by simp [h1]⟩
    · obtain ⟨j, hj, he⟩ := ih h2
      exact ⟨j + 1, by simpa using Nat.succ_lt_succ hj, by simpa using he⟩

/-- C10: the generated enum conversions.  For any enum with a nonempty,
duplicate-free list of declared numbers: (i) `from_enum` maps each declared
number to its declared variant (the variant at the same declaration index);
(ii) `from_enum` maps every undeclared number to variant 0, the first
declared variant, which is the generated `default()`; (iii) consequently
`to_enum (from_enum n) = n` holds exactly when `n` is a declared number. -/
theorem enum_from_number_policy (nums : List Int) (h0 : nums ≠ []) (hnd : nums.Nodup) :
    (∀ j, j < nums.length → fromEnum nums (nums.getD j 0) = j) ∧
    (∀ n : Int, n ∉ nums → fromEnum nums n = 0) ∧
    (∀ n : Int, toEnum nums (fromEnum nums n) = n ↔ n ∈ nums) := by
  refine ⟨?_, ?_, ?_⟩
  · intro j hj
    unfold fromEnum
    rw [fromEnumAux_getD nums hnd j 0 hj]
    simp
  · intro n hn
    unfold fromEnum
    rw [fromEnumAux_of_not_mem nums n hn 0]
    rfl
  · intro n
    constructor
    · intro h
      by_contra hn
      have h1 : fromEnum nums n = 0 := by
        unfold fromEnum
        rw [fromEnumAux_of_not_mem nums n hn 0]
        rfl
      rw [h1] at h
      have h2 : nums.getD 0 0 ∈ nums := by
        apply getD_mem
        cases nums with
        | nil => exact absurd rfl h0
        | cons a t => simp
      unfold toEnum at h
      rw [h] at h2
      exact hn h2
    · intro hmem
      obtain ⟨j, hj, he⟩ := exists_getD_of_mem nums n hmem
      have h1 : fromEnum nums n = j := by
        unfold fromEnum
        rw [← he, fromEnumAux_getD nums hnd j 0 hj]
        simp
      rw [h1]
      unfold toEnum
      exact he

/-- C10 witness: instantiation at the enum with declared numbers
`[0, 1, 5]`: declared numbers map to their variants, undeclared numbers to
variant 0, and `to_enum ∘ from_enum` is the identity only on `{0, 1, 5}`. -/
theorem enum_from_number_policy_witness :
    (∀ j, j < ([0, 1, 5] : List Int).length → fromEnum [0, 1, 5] (List.getD [0, 1, 5] j 0) = j) ∧
    (∀ n : Int, n ∉ ([0, 1, 5] : List Int) → fromEnum [0, 1, 5] n = 0) ∧
    (∀ n : Int, toEnum [0, 1, 5] (fromEnum [0, 1, 5] n) = n ↔ n ∈ ([0, 1, 5] : List Int)) :=
  enum_from_number_policy [0, 1, 5] (by decide) (by decide)

end ProtoGen
